import Mathlib

/-!
Verification of the adaptive radix tree implementation in
`include/art/art.hpp` (template class `art<T>`).

Keys are byte sequences, modelled as `List Nat`; values are caller-owned
handles `T *`, modelled as `Option Nat` where `none` stands for `nullptr`.

The node classes (`node.hpp`, `node_0.hpp`, `node_4.hpp`, `node_16.hpp`,
`node_48.hpp`, `node_256.hpp`) are not part of the sources; their contract
is modelled from the specification, section 4.1: a node carries a
compressed byte prefix, an optional value slot and a child map from one
byte to a child node with unique keys and ordered enumeration.  All size
class transitions (`grow`, `shrink`) preserve child ordering, the value
slot and the prefix of the source node, hence they are identities of the
abstract node state and are not represented.
-/

namespace ART

/-- A value handle `T *`: `none` is `nullptr`. -/
abbrev Val := Nat

/-- A key is a byte sequence (`uint8_t *key, int key_len`). -/
abbrev Key := List Nat

/-- Modelled from the spec: `node<T>::check_prefix` (node.hpp is not in the
sources).  Per section 4.2 it returns the longest common prefix length of
the node's compressed prefix and the remaining key, bounded by the length
of both. -/
def matchLen : List Nat → List Nat → Nat
  | a :: as, b :: bs => if a = b then matchLen as bs + 1 else 0
  | _, _ => 0

/-- `key[i]`: the byte of a key at an index, `0` out of bounds (every
access of the source is in bounds when it is evaluated). -/
def keyAt : List Nat → Nat → Nat
  | [], _ => 0
  | a :: _, 0 => a
  | _ :: tl, i + 1 => keyAt tl i

mutual

/-- A tree node: compressed prefix `prefix_`, value slot `value_` and the
child map.  The five size classes all present this same abstract state. -/
inductive N : Type where
  | mk (pfx : List Nat) (val : Option Val) (children : CL)
  deriving DecidableEq

/-- Modelled from the spec: the child map of a node (node.hpp is not in
the sources) as an association list ordered by ascending partial key with
unique keys, mirroring the sorted layouts of the node classes. -/
inductive CL : Type where
  | nil
  | cons (pk : Nat) (c : N) (tl : CL)
  deriving DecidableEq

end

/-- Modelled from the spec: `node<T>::find_child(byte)`. -/
def findC : CL → Nat → Option N
  | .nil, _ => none
  | .cons a c tl, b => if a = b then some c else findC tl b

/-- Modelled from the spec: `node<T>::n_children()`. -/
def clen : CL → Nat
  | .nil => 0
  | .cons _ _ tl => clen tl + 1

/-- Modelled from the spec: `node<T>::set_child(byte, node)`, keeping the
partial keys sorted and unique. -/
def insC : CL → Nat → N → CL
  | .nil, b, n => .cons b n .nil
  | .cons a c tl, b, n =>
    if b < a then .cons b n (.cons a c tl)
    else if b = a then .cons b n tl
    else .cons a c (insC tl b n)

mutual

/-- `art<T>::get(uint8_t *key, int key_len)` at one node, with the already
consumed part of the key dropped (`key` is the suffix from `depth`). -/
def getN : N → Key → Option Val
  | .mk p v cs, key =>
    if p.length ≠ matchLen p key then none
    else if p.length = key.length then v
    else getCL cs (keyAt key p.length) (key.drop (p.length + 1))

/-- Descent of `get` through `find_child`. -/
def getCL : CL → Nat → Key → Option Val
  | .nil, _, _ => none
  | .cons a c tl, b, key => if a = b then getN c key else getCL tl b key

end

mutual

/-- `art<T>::set(uint8_t *key, int key_len, T *value)` from the node in the
slot `cur`, with the consumed part of the key dropped.  Returns the old
value handle and the node that the slot `*cur` holds afterwards.

The four non-descending cases mirror the source in order: exact match
(replace the value), new key a proper prefix of the node's key (expand:
new `node_4` above the current node), prefix mismatch (split: new
`node_4` above the current node and a new `node_0` leaf), and no child
under the next byte (attach a new `node_0` leaf, growing the node first
when full; `grow` preserves the abstract node state, so it does not
appear).  Otherwise the walk continues in the child, whose slot is
rewritten in place. -/
def setN : N → Key → Val → Option Val × N
  | .mk p v0 cs, key, v =>
    let m := matchLen p key
    if min p.length key.length = m then
      if p.length = key.length then
        (v0, .mk p (some v) cs)
      else if key.length < p.length then
        (none, .mk (p.take m) (some v)
          (.cons (keyAt p m) (.mk (p.drop (m + 1)) v0 cs) .nil))
      else
        let b := keyAt key p.length
        match findC cs b with
        | none =>
          (none, .mk p v0
            (insC cs b (.mk (key.drop (p.length + 1)) (some v) .nil)))
        | some _ =>
          let r := setCL cs b (key.drop (p.length + 1)) v
          (r.1, .mk p v0 r.2)
    else
      (none, .mk (p.take m) none
        (insC (insC .nil (keyAt p m) (.mk (p.drop (m + 1)) v0 cs))
          (keyAt key m) (.mk (key.drop (m + 1)) (some v) .nil)))

/-- Descent of `set` into the child slot found by `find_child`; the slot
is overwritten with whatever node the recursive call leaves there. -/
def setCL : CL → Nat → Key → Val → Option Val × CL
  | .nil, _, _, _ => (none, .nil)
  | .cons a c tl, b, key, v =>
    if a = b then
      let r := setN c key v
      (r.1, .cons a r.2 tl)
    else
      let r := setCL tl b key v
      (r.1, .cons a c r.2)

end

/-- The exact match branch of `del`: the value slot was cleared; with
`n_siblings` always `0` (see `delN`), `n_children == 0` keeps the node in
its slot (deallocated but still referenced, kept as last written),
`n_children == 1` merges it with its only child, and otherwise the node
stays. -/
def delExact : List Nat → Option Val → CL → Option Val × N
  | p, v0, .nil => (v0, .mk p none .nil)
  | p, v0, .cons cpk (.mk cp cv ccs) .nil => (v0, .mk (p ++ cpk :: cp) cv ccs)
  | p, v0, cs => (v0, .mk p none cs)

mutual

/-- `art<T>::del(uint8_t *key, int key_len)` from the node in the slot
`cur`, with the consumed part of the key dropped.  Returns the old value
handle and the node that the slot `*cur` holds afterwards.

In the source, `par` is initialised to `nullptr` and never reassigned
during the descent, so at every exact match `n_siblings` is `0` and of
the four structural branches only `n_children == 0 && n_siblings == 0`
and `n_children == 1` can run; `del_child`, the sibling collapse and the
shrink of the parent are unreachable.  The reachable branches:
- `n_children == 0`: the node object is deallocated but neither
  `(**par).del_child` nor a reset of the slot `*cur` happens, so the slot
  keeps referencing it; the state of the node as last written (value slot
  cleared) is what the model keeps.
- `n_children == 1`: the node is merged with its only child: the child's
  prefix becomes `prefix ++ [child_partial_key] ++ child.prefix` and the
  slot is overwritten with the child.
- otherwise only the value slot is cleared. -/
def delN : N → Key → Option Val × N
  | .mk p v0 cs, key =>
    if p.length ≠ matchLen p key then (none, .mk p v0 cs)
    else if key.length = p.length then delExact p v0 cs
    else
      let r := delCL cs (keyAt key p.length) (key.drop (p.length + 1))
      (r.1, .mk p v0 r.2)

/-- Descent of `del` into the child slot found by `find_child`; a missing
child ends the walk with no change. -/
def delCL : CL → Nat → Key → Option Val × CL
  | .nil, _, _ => (none, .nil)
  | .cons a c tl, b, key =>
    if a = b then
      let r := delN c key
      (r.1, .cons a r.2 tl)
    else
      let r := delCL tl b key
      (r.1, .cons a c r.2)

end

/-- The tree: `art<T>` holds `node<T> *root_ = nullptr`. -/
abbrev Tree := Option N

/-- `art<T>::get`: walk from `root_`; a null root yields `nullptr`. -/
def artGet (t : Tree) (key : Key) : Option Val :=
  match t with
  | none => none
  | some n => getN n key

/-- `art<T>::set`: a null root is replaced by a fresh `node_0` whose
prefix is the whole key; otherwise the walk starts at the slot `&root_`. -/
def artSet (t : Tree) (key : Key) (v : Val) : Option Val × Tree :=
  match t with
  | none => (none, some (.mk key (some v) .nil))
  | some n =>
    let r := setN n key v
    (r.1, some r.2)

/-- `art<T>::del`: a null root yields `nullptr`; otherwise the walk starts
at the slot `&root_`.  No branch of the source ever writes `nullptr` into
`root_`, so the root slot stays occupied. -/
def artDel (t : Tree) (key : Key) : Option Val × Tree :=
  match t with
  | none => (none, none)
  | some n =>
    let r := delN n key
    (r.1, some r.2)

/-- One mutation of the tree: a call to `set` or to `del`. -/
inductive Op : Type where
  | set (k : Key) (v : Val)
  | del (k : Key)
  deriving DecidableEq

/-- Apply one operation to the tree, dropping the returned handle. -/
def stepOp (t : Tree) : Op → Tree
  | .set k v => (artSet t k v).2
  | .del k => (artDel t k).2

/-- Run a sequence of operations from a given tree. -/
def runFrom (t : Tree) (ops : List Op) : Tree := ops.foldl stepOp t

/-- Run a sequence of operations from the empty tree. -/
def runOps (ops : List Op) : Tree := runFrom none ops

/-- The reference map semantics of one operation. -/
def specStep (m : Key → Option Val) : Op → Key → Option Val
  | .set k v, q => if q = k then some v else m q
  | .del k, q => if q = k then none else m q

/-- The reference map semantics of a sequence of operations from the empty
map: the most recent `set` of a key wins, a later `del` of it erases it. -/
def specGet (ops : List Op) : Key → Option Val :=
  ops.foldl specStep fun _ => none

mutual

/-- The compression invariant at one node: unless the node is the root, it
must not have fewer than 2 children together with an empty value slot;
and the same must hold in every child. -/
def okN : Bool → N → Bool
  | isRoot, .mk _ v cs => (isRoot || v.isSome || decide (2 ≤ clen cs)) && okCL cs

/-- The compression invariant for all nodes of a child map. -/
def okCL : CL → Bool
  | .nil => true
  | .cons _ c tl => okN false c && okCL tl

end

/-- The compression invariant of the whole tree: no node has fewer than 2
children, an empty value slot and a non-null parent. -/
def compressionOK : Tree → Bool
  | none => true
  | some n => okN true n

/-- The partial key `a` is smaller than every partial key of the map:
used to state that child maps are sorted. -/
def ltAllCL (a : Nat) : CL → Bool
  | .nil => true
  | .cons b _ tl => decide (a < b) && ltAllCL a tl

mutual

/-- Well-formed node: every child map on the way down lists its partial
keys in strictly ascending order, as the sorted layouts of the node
classes guarantee. -/
def wfN : N → Bool
  | .mk _ _ cs => wfCL cs

/-- Well-formed child map: strictly ascending partial keys, well-formed
children. -/
def wfCL : CL → Bool
  | .nil => true
  | .cons a c tl => wfN c && ltAllCL a tl && wfCL tl

end

/-- Well-formed tree. -/
def wfT : Tree → Bool
  | none => true
  | some n => wfN n

/-- Strict lexicographic order on byte sequences, as `std::string`
comparison orders keys: a proper prefix comes first, otherwise the first
differing byte decides. -/
def keyLtB : Key → Key → Bool
  | _, [] => false
  | [], _ :: _ => true
  | a :: as, b :: bs => if a < b then true else if b < a then false else keyLtB as bs

mutual

/-- Modelled from the spec: the traversal order of `tree_it<T>`
(tree_it.hpp is not in the sources).  Per section 4.5, for each node the
iterator visits the node's own value, then the children in ascending
partial key order; `pre` is the concatenation of prefixes and partial key
edges above the node, so `pre ++ pfx` is the full key of the node's value
slot. -/
def inorderN (pre : Key) : N → List (Key × Val)
  | .mk p v cs =>
    (match v with
      | some x => [(pre ++ p, x)]
      | none => []) ++ inorderCL (pre ++ p) cs

/-- Traversal of the children of a node in ascending partial key order. -/
def inorderCL (pre : Key) : CL → List (Key × Val)
  | .nil => []
  | .cons a c tl => inorderN (pre ++ [a]) c ++ inorderCL pre tl

end

/-- The full in-order traversal of the tree: all key and value pairs. -/
def inorder : Tree → List (Key × Val)
  | none => []
  | some n => inorderN [] n

/-- Modelled from the spec: `art<T>::begin(key)` followed by repeated
advance until `end()` (tree_it.hpp is not in the sources).  Per section
4.5 the iterator visits a node's value only when its full key is at least
the seek key, in in-order traversal order, so the sequence of visited
pairs is the traversal restricted to keys not below the seek key. -/
def seekList (t : Tree) (seek : Key) : List (Key × Val) :=
  (inorder t).filter fun e => !keyLtB e.1 seek

mutual

/-- `art<T>::get` as explicit state passing: the walk returns, next to the
value handle, the node state it leaves behind, rebuilt from exactly the
fields the source reads.  The source performs no store on any node. -/
def getSN : N → Key → Option Val × N
  | .mk p v cs, key =>
    if p.length ≠ matchLen p key then (none, .mk p v cs)
    else if p.length = key.length then (v, .mk p v cs)
    else
      let r := getSCL cs (keyAt key p.length) (key.drop (p.length + 1))
      (r.1, .mk p v r.2)

/-- State passing descent of `get` through the child map. -/
def getSCL : CL → Nat → Key → Option Val × CL
  | .nil, _, _ => (none, .nil)
  | .cons a c tl, b, key =>
    if a = b then
      let r := getSN c key
      (r.1, .cons a r.2 tl)
    else
      let r := getSCL tl b key
      (r.1, .cons a c r.2)

end

/-- `art<T>::get` on the tree as explicit state passing. -/
def artGetS (t : Tree) (key : Key) : Option Val × Tree :=
  match t with
  | none => (none, none)
  | some n =>
    let r := getSN n key
    (r.1, some r.2)

/-! ### Properties of the common prefix length -/

theorem matchLen_le_left (p k : List Nat) : matchLen p k ≤ p.length := by
  induction p generalizing k with
  | nil => simp [matchLen]
  | cons a as ih =>
    cases k with
    | nil => simp [matchLen]
    | cons b bs =>
      by_cases h : a = b <;> simp [matchLen, h]
      exact ih bs

theorem matchLen_le_right (p k : List Nat) : matchLen p k ≤ k.length := by
  induction p generalizing k with
  | nil => simp [matchLen]
  | cons a as ih =>
    cases k with
    | nil => simp [matchLen]
    | cons b bs =>
      by_cases h : a = b <;> simp [matchLen, h]
      exact ih bs

theorem matchLen_append (a c d : List Nat) :
    matchLen (a ++ c) (a ++ d) = a.length + matchLen c d := by
  induction a with
  | nil => simp
  | cons x xs ih => simp [matchLen, ih]; omega

theorem matchLen_self_append (p r : List Nat) :
    matchLen p (p ++ r) = p.length := by
  have h := matchLen_append p [] r
  simpa using h

theorem matchLen_self (p : List Nat) : matchLen p p = p.length := by
  simpa using matchLen_self_append p []

theorem matchLen_comm (p k : List Nat) : matchLen p k = matchLen k p := by
  induction p generalizing k with
  | nil => cases k <;> simp [matchLen]
  | cons a as ih =>
    cases k with
    | nil => simp [matchLen]
    | cons b bs =>
      by_cases h : a = b
      · subst h; simp [matchLen, ih]
      · simp [matchLen, h, Ne.symm h]

theorem matchLen_stall (a : List Nat) (x y : Nat) (c d : List Nat) (h : x ≠ y) :
    matchLen (a ++ x :: c) (a ++ y :: d) = a.length := by
  rw [matchLen_append]
  simp [matchLen, h]

theorem matchLen_take (p k : List Nat) :
    p.take (matchLen p k) = k.take (matchLen p k) := by
  induction p generalizing k with
  | nil => simp [matchLen]
  | cons a as ih =>
    cases k with
    | nil => simp [matchLen]
    | cons b bs =>
      by_cases h : a = b <;> simp [matchLen, h]
      exact ih bs

theorem matchLen_full (p k : List Nat) (h : matchLen p k = p.length) :
    k = p ++ k.drop p.length := by
  have ht : p.take (matchLen p k) = k.take (matchLen p k) := matchLen_take p k
  rw [h] at ht
  simp at ht
  conv_lhs => rw [← List.take_append_drop p.length k, ← ht]

theorem matchLen_ne_keyAt (p k : List Nat) (h1 : matchLen p k < p.length)
    (h2 : matchLen p k < k.length) :
    keyAt p (matchLen p k) ≠ keyAt k (matchLen p k) := by
  induction p generalizing k with
  | nil => simp at h1
  | cons a as ih =>
    cases k with
    | nil => simp at h2
    | cons b bs =>
      by_cases h : a = b
      · subst h
        have hm : matchLen (a :: as) (a :: bs) = matchLen as bs + 1 := by
          simp [matchLen]
        rw [hm] at h1 h2 ⊢
        show keyAt as (matchLen as bs) ≠ keyAt bs (matchLen as bs)
        simp at h1 h2
        exact ih bs h1 h2
      · have hm : matchLen (a :: as) (b :: bs) = 0 := by simp [matchLen, h]
        rw [hm]
        exact h

/-! ### List index helpers -/

theorem keyAt_append (l r : List Nat) (n : Nat) :
    keyAt (l ++ r) (l.length + n) = keyAt r n := by
  induction l with
  | nil => simp
  | cons x xs ih => simpa [Nat.succ_add, keyAt] using ih

theorem keyAt_append_self (l r : List Nat) :
    keyAt (l ++ r) l.length = keyAt r 0 := by
  simpa using keyAt_append l r 0

theorem listDrop_append (l r : List Nat) (n : Nat) :
    (l ++ r).drop (l.length + n) = r.drop n := by
  induction l with
  | nil => simp
  | cons x xs ih => simp [Nat.succ_add, ih]

/-! ### The path compression shift -/

theorem getN_shift (a : List Nat) (b : Nat) (c : List Nat) (v : Option Val)
    (cs : CL) (q : Key) :
    getN (.mk (a ++ b :: c) v cs) (a ++ b :: q) = getN (.mk c v cs) q := by
  have hm : matchLen (a ++ b :: c) (a ++ b :: q) = a.length + (matchLen c q + 1) := by
    rw [matchLen_append]
    simp [matchLen]
  have hd : keyAt (a ++ b :: q) ((a ++ b :: c).length) = keyAt q c.length := by
    have h1 : (a ++ b :: c).length = a.length + (1 + c.length) := by simp; omega
    have h2 : (a ++ b :: q) = (a ++ [b]) ++ q := by simp
    have h3 : a.length + (1 + c.length) = (a ++ [b]).length + c.length := by
      simp; omega
    rw [h1, h2, h3, keyAt_append]
  have hdr : (a ++ b :: q).drop ((a ++ b :: c).length + 1) = q.drop (c.length + 1) := by
    have h2 : (a ++ b :: q) = (a ++ [b]) ++ q := by simp
    have h3 : (a ++ b :: c).length + 1 = (a ++ [b]).length + (c.length + 1) := by
      simp; omega
    rw [h2, h3, listDrop_append]
  rw [getN, getN, hm, hd, hdr]
  have hlen : (a ++ b :: c).length = a.length + (c.length + 1) := by simp
  have hklen : (a ++ b :: q).length = a.length + (q.length + 1) := by simp
  by_cases h1 : c.length = matchLen c q
  · by_cases h2 : c.length = q.length
    · have e1 : a.length + (c.length + 1) = a.length + (matchLen c q + 1) := by omega
      have e2 : a.length + (c.length + 1) = a.length + (q.length + 1) := by omega
      simp [hlen, hklen, h1, h2, e1, e2]
    · have e1 : a.length + (c.length + 1) = a.length + (matchLen c q + 1) := by omega
      have e2 : ¬ a.length + (c.length + 1) = a.length + (q.length + 1) := by
        omega
      simp [hlen, hklen, h1, h2, e1, e2]
  · have e1 : ¬ a.length + (c.length + 1) = a.length + (matchLen c q + 1) := by
      omega
    simp [hlen, hklen, h1, e1]

/-! ### Child map lookup and insertion -/

theorem getCL_eq_findC (cs : CL) (b : Nat) (key : Key) :
    getCL cs b key =
      match findC cs b with
      | none => none
      | some c => getN c key := by
  cases cs with
  | nil => simp [getCL, findC]
  | cons a c tl =>
    by_cases h : a = b <;> simp [getCL, findC, h, getCL_eq_findC tl b key]

theorem findC_insC_self (cs : CL) (b : Nat) (n : N) :
    findC (insC cs b n) b = some n := by
  cases cs with
  | nil => simp [insC, findC]
  | cons a c tl =>
    by_cases hlt : b < a
    · simp [insC, hlt, findC]
    · by_cases heq : b = a
      · simp [insC, hlt, heq, findC]
      · have h2 : ¬ a = b := fun h => heq h.symm
        simp [insC, hlt, heq, findC, h2, findC_insC_self tl b n]

theorem findC_insC_ne (cs : CL) (b b' : Nat) (n : N) (h : b' ≠ b) :
    findC (insC cs b n) b' = findC cs b' := by
  have h2 : ¬ b = b' := fun hh => h hh.symm
  cases cs with
  | nil => simp [insC, findC, h2]
  | cons a c tl =>
    by_cases hlt : b < a
    · simp [insC, hlt, findC, h2]
    · by_cases heq : b = a
      · subst heq
        simp [insC, hlt, findC, h2]
      · simp [insC, hlt, heq, findC, findC_insC_ne tl b b' n h]

/-! ### The value handle returned by set and del is the one get finds -/

mutual

theorem setN_fst (n : N) (key : Key) (v : Val) :
    (setN n key v).1 = getN n key := by
  cases n with
  | mk p v0 cs =>
    have hl := matchLen_le_left p key
    have hr := matchLen_le_right p key
    by_cases hpm : min p.length key.length = matchLen p key
    · by_cases hex : p.length = key.length
      · have hm : matchLen p key = p.length := by omega
        simp [setN, getN, hpm, hex, hm]
      · by_cases hlt : key.length < p.length
        · have hne : p.length ≠ matchLen p key := by omega
          simp [setN, getN, hpm, hex, hlt, hne]
        · have hm : matchLen p key = p.length := by omega
          cases hf : findC cs (keyAt key p.length) with
          | none =>
            simp [setN, getN, hpm, hex, hlt, hm, hf, getCL_eq_findC]
          | some c =>
            have h2 := setCL_fst cs (keyAt key p.length)
              (key.drop (p.length + 1)) v
            simp [setN, getN, hpm, hex, hlt, hm, hf, h2]
    · have hne : p.length ≠ matchLen p key := by
        intro h
        apply hpm
        omega
      simp [setN, getN, hpm, hne]

theorem setCL_fst (cs : CL) (b : Nat) (key : Key) (v : Val) :
    (setCL cs b key v).1 = getCL cs b key := by
  cases cs with
  | nil => simp [setCL, getCL]
  | cons a c tl =>
    by_cases h : a = b
    · simp [setCL, getCL, h, setN_fst c key v]
    · simp [setCL, getCL, h, setCL_fst tl b key v]

end

mutual

theorem delN_fst (n : N) (key : Key) : (delN n key).1 = getN n key := by
  cases n with
  | mk p v0 cs =>
    by_cases hmis : p.length ≠ matchLen p key
    · simp [delN, getN, hmis]
    · by_cases hex : key.length = p.length
      · cases cs with
        | nil => simp [delN, delExact, getN, hmis, hex]
        | cons cpk c tl =>
          cases c with
          | mk cp cv ccs =>
            cases tl with
            | nil => simp [delN, delExact, getN, hmis, hex]
            | cons a2 c2 tl2 => simp [delN, delExact, getN, hmis, hex]
      · have hex' : ¬ p.length = key.length := fun h => hex h.symm
        simp [delN, getN, hmis, hex, hex',
          delCL_fst cs (keyAt key p.length) (key.drop (p.length + 1))]

theorem delCL_fst (cs : CL) (b : Nat) (key : Key) :
    (delCL cs b key).1 = getCL cs b key := by
  cases cs with
  | nil => simp [delCL, getCL]
  | cons a c tl =>
    by_cases h : a = b
    · simp [delCL, getCL, h, delN_fst c key]
    · simp [delCL, getCL, h, delCL_fst tl b key]

end

theorem matchLen_full_eq (p k : List Nat) (h : matchLen p k = p.length)
    (hl : p.length = k.length) : k = p := by
  have h2 := matchLen_full p k h
  rw [List.drop_eq_nil_of_le (by omega)] at h2
  simpa using h2

theorem getN_mk_self (q : List Nat) (v : Option Val) (cs : CL) :
    getN (.mk q v cs) q = v := by
  simp [getN, matchLen_self]

/-! ### Lookup after set finds the new value -/

mutual

theorem getN_setN_self (n : N) (key : Key) (v : Val) :
    getN (setN n key v).2 key = some v := by
  cases n with
  | mk p v0 cs =>
    have hl := matchLen_le_left p key
    have hr := matchLen_le_right p key
    by_cases hpm : min p.length key.length = matchLen p key
    · by_cases hex : p.length = key.length
      · have hm : matchLen p key = p.length := by omega
        simp [setN, getN, hpm, hex, hm]
      · by_cases hlt : key.length < p.length
        · have hm : matchLen p key = key.length := by omega
          have htk : p.take (matchLen p key) = key := by
            rw [matchLen_take, hm, List.take_length]
          simp only [setN, if_pos hpm, if_neg hex, if_pos hlt]
          rw [htk]
          exact getN_mk_self key (some v) _
        · have hm : matchLen p key = p.length := by omega
          have hplt : p.length < key.length := by omega
          cases hf : findC cs (keyAt key p.length) with
          | none =>
            have hfi := findC_insC_self cs (keyAt key p.length)
              (N.mk (key.drop (p.length + 1)) (some v) CL.nil)
            simp [setN, getN, hpm, hex, hlt, hm, hf, getCL_eq_findC, hfi,
              matchLen_self]
          | some c =>
            have h2 := getCL_setCL_self cs (keyAt key p.length)
              (key.drop (p.length + 1)) v c hf
            simp [setN, getN, hpm, hex, hlt, hm, hf, h2]
    · have h1 : matchLen p key < p.length := by omega
      have h2 : matchLen p key < key.length := by omega
      have htk : p.take (matchLen p key) = key.take (matchLen p key) :=
        matchLen_take p key
      have hml : matchLen (key.take (matchLen p key)) key = matchLen p key := by
        have e := matchLen_self_append (key.take (matchLen p key))
          (key.drop (matchLen p key))
        rw [List.take_append_drop] at e
        rw [e, List.length_take]
        omega
      have hlt2 : (key.take (matchLen p key)).length = matchLen p key := by
        rw [List.length_take]
        omega
      have hfi := findC_insC_self
        (insC CL.nil (keyAt p (matchLen p key))
          (N.mk (p.drop (matchLen p key + 1)) v0 cs))
        (keyAt key (matchLen p key))
        (N.mk (key.drop (matchLen p key + 1)) (some v) CL.nil)
      have hne2 : ¬ matchLen p key = key.length := by omega
      simp only [setN, if_neg hpm]
      rw [htk, getN]
      simp [hml, hlt2, hne2, getCL_eq_findC, hfi, getN_mk_self]

theorem getCL_setCL_self (cs : CL) (b : Nat) (key : Key) (v : Val) (c : N)
    (hf : findC cs b = some c) :
    getCL (setCL cs b key v).2 b key = some v := by
  cases cs with
  | nil => simp [findC] at hf
  | cons a c0 tl =>
    by_cases h : a = b
    · simp [setCL, getCL, h, getN_setN_self c0 key v]
    · rw [findC, if_neg h] at hf
      simp [setCL, getCL, h, getCL_setCL_self tl b key v c hf]

end

/-! ### Lookup after del no longer finds the key -/

mutual

theorem getN_delN_self (n : N) (key : Key) :
    getN (delN n key).2 key = none := by
  cases n with
  | mk p v0 cs =>
    by_cases hmis : p.length ≠ matchLen p key
    · simp [delN, getN, hmis]
    · have hm : matchLen p key = p.length := by
        have := not_not.mp hmis
        omega
      by_cases hex : key.length = p.length
      · have hkp : key = p := matchLen_full_eq p key hm hex.symm
        cases cs with
        | nil => simp [delN, delExact, getN, hmis, hex]
        | cons cpk c tl =>
          cases c with
          | mk cp cv ccs =>
            cases tl with
            | nil =>
              have hml : matchLen (p ++ cpk :: cp) key = p.length := by
                rw [hkp, matchLen_comm, matchLen_self_append]
              have hlen : ¬ (p ++ cpk :: cp).length = p.length := by
                simp
              simp [delN, delExact, getN, hmis, hex, hml, hlen]
            | cons a2 c2 tl2 => simp [delN, delExact, getN, hmis, hex]
      · have hex' : ¬ p.length = key.length := fun h => hex h.symm
        simp [delN, getN, hmis, hex, hex',
          getCL_delCL_self cs (keyAt key p.length) (key.drop (p.length + 1))]

theorem getCL_delCL_self (cs : CL) (b : Nat) (key : Key) :
    getCL (delCL cs b key).2 b key = none := by
  cases cs with
  | nil => simp [delCL, getCL]
  | cons a c tl =>
    by_cases h : a = b
    · simp [delCL, getCL, h, getN_delN_self c key]
    · simp [delCL, getCL, h, getCL_delCL_self tl b key]

end

/-! ### Decomposition helpers for the frame lemmas -/

theorem matchLen_stall_lt (a q x : List Nat) (h : matchLen a q < a.length) :
    matchLen (a ++ x) q = matchLen a q := by
  induction a generalizing q with
  | nil => simp at h
  | cons c cs ih =>
    cases q with
    | nil => simp [matchLen]
    | cons d ds =>
      by_cases hcd : c = d
      · subst hcd
        have h2 : matchLen cs ds < cs.length := by
          simp [matchLen] at h
          omega
        simp [matchLen, ih ds h2]
      · simp [matchLen, hcd]

theorem matchLen_append_left_self (a x : List Nat) :
    matchLen (a ++ x) a = a.length := by
  rw [matchLen_comm, matchLen_self_append]

theorem listDrop_eq_keyAt_cons (l : List Nat) (i : Nat) (h : i < l.length) :
    l.drop i = keyAt l i :: l.drop (i + 1) := by
  induction l generalizing i with
  | nil => simp at h
  | cons a tl ih =>
    cases i with
    | zero => simp [keyAt]
    | succ j =>
      have h2 : j < tl.length := by simpa using h
      simpa [keyAt] using ih j h2

theorem getN_leaf_ne (k q : Key) (v0 : Option Val) (hq : q ≠ k) :
    getN (.mk k v0 .nil) q = none := by
  by_cases h1 : k.length ≠ matchLen k q
  · simp [getN, h1]
  · by_cases h2 : k.length = q.length
    · exact absurd (matchLen_full_eq k q (not_not.mp h1).symm h2) hq
    · simp [getN, h1, h2, getCL]

theorem getCL_setCL_ne (cs : CL) (b : Nat) (key : Key) (v : Val) (bq : Nat)
    (q : Key) (hb : bq ≠ b) :
    getCL (setCL cs b key v).2 bq q = getCL cs bq q := by
  cases cs with
  | nil => simp [setCL]
  | cons a c tl =>
    by_cases h : a = b
    · subst h
      have h2 : ¬ a = bq := fun hh => hb (hh.symm)
      simp [setCL, getCL, h2]
    · by_cases h3 : a = bq
      · simp [setCL, getCL, h, h3, hb]
      · simp [setCL, getCL, h, h3, getCL_setCL_ne tl b key v bq q hb]

theorem getCL_delCL_ne (cs : CL) (b : Nat) (key : Key) (bq : Nat)
    (q : Key) (hb : bq ≠ b) :
    getCL (delCL cs b key).2 bq q = getCL cs bq q := by
  cases cs with
  | nil => simp [delCL]
  | cons a c tl =>
    by_cases h : a = b
    · subst h
      have h2 : ¬ a = bq := fun hh => hb (hh.symm)
      simp [delCL, getCL, h2]
    · by_cases h3 : a = bq
      · simp [delCL, getCL, h, h3, hb]
      · simp [delCL, getCL, h, h3, getCL_delCL_ne tl b key bq q hb]

theorem getN_step (p' : List Nat) (v' : Option Val) (cs : CL) (b : Nat)
    (rest : List Nat) :
    getN (.mk p' v' cs) (p' ++ b :: rest) = getCL cs b rest := by
  have h1 : matchLen p' (p' ++ b :: rest) = p'.length := matchLen_self_append _ _
  have h2 : (p' ++ b :: rest).length = p'.length + (rest.length + 1) := by simp
  have h3 : keyAt (p' ++ b :: rest) p'.length = b := by
    simpa using keyAt_append p' (b :: rest) 0
  have h4 : (p' ++ b :: rest).drop (p'.length + 1) = rest := by
    have e : (p' ++ b :: rest) = (p' ++ [b]) ++ rest := by simp
    have e2 : p'.length + 1 = (p' ++ [b]).length + 0 := by simp
    rw [e, e2, listDrop_append]
    simp
  rw [getN, h1, h2, h3, h4]
  have h5 : ¬ p'.length = p'.length + (rest.length + 1) := by omega
  simp [h5]

theorem frame_replace (p' : List Nat) (v0 v1 : Option Val) (cs : CL) (q : Key)
    (hq : q ≠ p') :
    getN (.mk p' v1 cs) q = getN (.mk p' v0 cs) q := by
  by_cases hq1 : p'.length ≠ matchLen p' q
  · simp [getN, hq1]
  · by_cases hq2 : p'.length = q.length
    · exact absurd (matchLen_full_eq p' q (not_not.mp hq1).symm hq2) hq
    · simp [getN, hq1, hq2]

theorem getCL_insC_self (cs : CL) (b : Nat) (n : N) (key : Key) :
    getCL (insC cs b n) b key = getN n key := by
  rw [getCL_eq_findC, findC_insC_self]

theorem getCL_insC_ne (cs : CL) (b b' : Nat) (n : N) (key : Key)
    (h : b' ≠ b) :
    getCL (insC cs b n) b' key = getCL cs b' key := by
  rw [getCL_eq_findC, findC_insC_ne cs b b' n h, ← getCL_eq_findC]

theorem getCL_of_findC_none (cs : CL) (b : Nat) (key : Key)
    (h : findC cs b = none) : getCL cs b key = none := by
  rw [getCL_eq_findC, h]

theorem frame_expand (key : Key) (b0 : Nat) (rest : List Nat)
    (v0 v' : Option Val) (cs : CL) (q : Key) (hq : q ≠ key) :
    getN (.mk key v' (.cons b0 (.mk rest v0 cs) .nil)) q
      = getN (.mk (key ++ b0 :: rest) v0 cs) q := by
  by_cases hq1 : matchLen key q = key.length
  · by_cases hq2 : key.length = q.length
    · exact absurd (matchLen_full_eq key q hq1 hq2) hq
    · have hkl : key.length < q.length := by
        have := matchLen_le_right key q
        omega
      have hqd : q = key ++ keyAt q key.length :: q.drop (key.length + 1) := by
        have h0 := matchLen_full key q hq1
        rw [listDrop_eq_keyAt_cons q key.length hkl] at h0
        exact h0
      by_cases hqb : keyAt q key.length = b0
      · conv_lhs => rw [hqd, hqb]
        conv_rhs => rw [hqd, hqb]
        rw [getN_step, getN_shift]
        rw [getCL, if_pos rfl]
      · conv_lhs => rw [hqd]
        conv_rhs => rw [hqd]
        rw [getN_step]
        have hst : matchLen (key ++ b0 :: rest)
            (key ++ keyAt q key.length :: q.drop (key.length + 1)) = key.length :=
          matchLen_stall key b0 (keyAt q key.length) rest
            (q.drop (key.length + 1)) (fun h => hqb h.symm)
        rw [getCL, if_neg (fun h => hqb h.symm), getCL]
        rw [getN, hst, if_pos (by simp)]
  · have hlt : matchLen key q < key.length := by
      have := matchLen_le_left key q
      omega
    have hst := matchLen_stall_lt key q (b0 :: rest) hlt
    have h1 : ¬ key.length = matchLen key q := fun h => hq1 h.symm
    rw [getN, getN, hst, if_pos h1, if_pos (by simp; omega)]

theorem frame_addchild (p' : List Nat) (v0 : Option Val) (cs : CL) (b : Nat)
    (krest : List Nat) (v : Val) (q : Key) (hf : findC cs b = none)
    (hq : q ≠ p' ++ b :: krest) :
    getN (.mk p' v0 (insC cs b (.mk krest (some v) .nil))) q
      = getN (.mk p' v0 cs) q := by
  by_cases hq1 : p'.length ≠ matchLen p' q
  · simp [getN, hq1]
  · by_cases hq2 : p'.length = q.length
    · simp [getN, hq1, hq2]
    · have hqm : matchLen p' q = p'.length := (not_not.mp hq1).symm
      have hql : p'.length < q.length := by
        have := matchLen_le_right p' q
        omega
      have hqd : q = p' ++ keyAt q p'.length :: q.drop (p'.length + 1) := by
        have h0 := matchLen_full p' q hqm
        rw [listDrop_eq_keyAt_cons q p'.length hql] at h0
        exact h0
      conv_lhs => rw [hqd]
      conv_rhs => rw [hqd]
      rw [getN_step, getN_step]
      by_cases hqb : keyAt q p'.length = b
      · rw [hqb]
        rw [getCL_eq_findC, getCL_eq_findC, hf, findC_insC_self]
        apply getN_leaf_ne
        intro h
        apply hq
        rw [hqd, hqb, h]
      · rw [getCL_eq_findC, getCL_eq_findC, findC_insC_ne cs b _ _ hqb]

theorem frame_split (kp : List Nat) (pm km : Nat) (prest krest : List Nat)
    (v0 : Option Val) (cs : CL) (v : Val) (q : Key) (hpk : pm ≠ km)
    (hq : q ≠ kp ++ km :: krest) :
    getN (.mk kp none
        (insC (insC .nil pm (.mk prest v0 cs)) km (.mk krest (some v) .nil))) q
      = getN (.mk (kp ++ pm :: prest) v0 cs) q := by
  by_cases hq1 : matchLen kp q = kp.length
  · by_cases hq2 : kp.length = q.length
    · have hqk : q = kp := matchLen_full_eq kp q hq1 hq2
      subst hqk
      have h1 : matchLen (q ++ pm :: prest) q = q.length :=
        matchLen_append_left_self q (pm :: prest)
      have h2 : ¬ (q ++ pm :: prest).length = q.length := by simp
      simp [getN, matchLen_self, h1, h2]
    · have hql : kp.length < q.length := by
        have := matchLen_le_right kp q
        omega
      have hqd : q = kp ++ keyAt q kp.length :: q.drop (kp.length + 1) := by
        have h0 := matchLen_full kp q hq1
        rw [listDrop_eq_keyAt_cons q kp.length hql] at h0
        exact h0
      by_cases hqb : keyAt q kp.length = km
      · conv_lhs => rw [hqd, hqb]
        conv_rhs => rw [hqd, hqb]
        rw [getN_step, getCL_insC_self]
        have hst : matchLen (kp ++ pm :: prest) (kp ++ km :: q.drop (kp.length + 1))
            = kp.length := matchLen_stall kp pm km prest _ hpk
        rw [getN_leaf_ne krest _ (some v) (fun h => hq (by rw [hqd, hqb, h]))]
        rw [getN, hst, if_pos (by simp)]
      · by_cases hqp : keyAt q kp.length = pm
        · conv_lhs => rw [hqd, hqp]
          conv_rhs => rw [hqd, hqp]
          rw [getN_step, getN_shift,
            getCL_insC_ne _ km pm _ _ hpk,
            getCL_insC_self]
        · conv_lhs => rw [hqd]
          conv_rhs => rw [hqd]
          rw [getN_step,
            getCL_insC_ne _ km _ _ _ hqb,
            getCL_insC_ne _ pm _ _ _ hqp, getCL]
          have hst : matchLen (kp ++ pm :: prest)
              (kp ++ keyAt q kp.length :: q.drop (kp.length + 1)) = kp.length :=
            matchLen_stall kp pm _ prest _ (fun h => hqp h.symm)
          rw [getN, hst, if_pos (by simp)]
  · have hlt : matchLen kp q < kp.length := by
      have := matchLen_le_left kp q
      omega
    have hst := matchLen_stall_lt kp q (pm :: prest) hlt
    have h1 : ¬ kp.length = matchLen kp q := fun h => hq1 h.symm
    rw [getN, getN, hst, if_pos h1, if_pos (by simp; omega)]

/-! ### Set and del do not disturb other keys -/

mutual

theorem getN_setN_frame (n : N) (key q : Key) (v : Val) (hq : q ≠ key) :
    getN (setN n key v).2 q = getN n q := by
  cases n with
  | mk p v0 cs =>
    have hl := matchLen_le_left p key
    have hr := matchLen_le_right p key
    by_cases hpm : min p.length key.length = matchLen p key
    · by_cases hex : p.length = key.length
      · have hm : matchLen p key = p.length := by omega
        have hkp : key = p := matchLen_full_eq p key hm hex
        simp only [setN, if_pos hpm, if_pos hex]
        exact frame_replace p v0 (some v) cs q (hkp ▸ hq)
      · by_cases hlt : key.length < p.length
        · have hm : matchLen p key = key.length := by omega
          have hmp : matchLen p key < p.length := by omega
          have htk : p.take (matchLen p key) = key := by
            rw [matchLen_take, hm, List.take_length]
          have hpd : p = key ++ keyAt p (matchLen p key) ::
              p.drop (matchLen p key + 1) := by
            conv_lhs => rw [← List.take_append_drop (matchLen p key) p]
            rw [listDrop_eq_keyAt_cons p (matchLen p key) hmp, htk]
          simp only [setN, if_pos hpm, if_neg hex, if_pos hlt]
          rw [htk]
          conv_rhs => rw [hpd]
          exact frame_expand key (keyAt p (matchLen p key))
            (p.drop (matchLen p key + 1)) v0 (some v) cs q hq
        · have hm : matchLen p key = p.length := by omega
          have hkl : p.length < key.length := by omega
          have hkd : key = p ++ keyAt key p.length ::
              key.drop (p.length + 1) := by
            have h0 := matchLen_full p key hm
            rw [listDrop_eq_keyAt_cons key p.length hkl] at h0
            exact h0
          cases hf : findC cs (keyAt key p.length) with
          | none =>
            simp only [setN, if_pos hpm, if_neg hex, if_neg hlt, hf]
            exact frame_addchild p v0 cs (keyAt key p.length)
              (key.drop (p.length + 1)) v q hf
              (fun h => hq (h.trans hkd.symm))
          | some c =>
            simp only [setN, if_pos hpm, if_neg hex, if_neg hlt, hf]
            by_cases hq1 : p.length ≠ matchLen p q
            · rw [getN, getN, if_pos hq1, if_pos hq1]
            · by_cases hq2 : p.length = q.length
              · rw [getN, getN, if_neg hq1, if_neg hq1, if_pos hq2, if_pos hq2]
              · have hqm : matchLen p q = p.length := (not_not.mp hq1).symm
                have hql : p.length < q.length := by
                  have := matchLen_le_right p q
                  omega
                have hqd : q = p ++ keyAt q p.length ::
                    q.drop (p.length + 1) := by
                  have h0 := matchLen_full p q hqm
                  rw [listDrop_eq_keyAt_cons q p.length hql] at h0
                  exact h0
                rw [getN, getN, if_neg hq1, if_neg hq1, if_neg hq2, if_neg hq2]
                by_cases hqb : keyAt q p.length = keyAt key p.length
                · rw [hqb]
                  apply getCL_setCL_frame
                  intro h
                  exact hq (by rw [hqd, hqb, h, ← hkd])
                · exact getCL_setCL_ne cs _ _ v _ _ hqb
    · have h1 : matchLen p key < p.length := by omega
      have h2 : matchLen p key < key.length := by omega
      have hne := matchLen_ne_keyAt p key h1 h2
      have htk : p.take (matchLen p key) = key.take (matchLen p key) :=
        matchLen_take p key
      have hpd : p = p.take (matchLen p key) ++ keyAt p (matchLen p key) ::
          p.drop (matchLen p key + 1) := by
        conv_lhs => rw [← List.take_append_drop (matchLen p key) p]
        rw [listDrop_eq_keyAt_cons p (matchLen p key) h1]
      have hkd : key = key.take (matchLen p key) ++ keyAt key (matchLen p key) ::
          key.drop (matchLen p key + 1) := by
        conv_lhs => rw [← List.take_append_drop (matchLen p key) key]
        rw [listDrop_eq_keyAt_cons key (matchLen p key) h2]
      simp only [setN, if_neg hpm]
      rw [htk]
      conv_rhs => rw [hpd, htk]
      exact frame_split (key.take (matchLen p key)) (keyAt p (matchLen p key))
        (keyAt key (matchLen p key)) (p.drop (matchLen p key + 1))
        (key.drop (matchLen p key + 1)) v0 cs v q hne
        (fun h => hq (h.trans hkd.symm))

theorem getCL_setCL_frame (cs : CL) (b : Nat) (key q : Key) (v : Val)
    (hq : q ≠ key) :
    getCL (setCL cs b key v).2 b q = getCL cs b q := by
  cases cs with
  | nil => rw [setCL]
  | cons a c tl =>
    by_cases h : a = b
    · simp only [setCL, if_pos h]
      rw [getCL, getCL, if_pos h, if_pos h]
      exact getN_setN_frame c key q v hq
    · simp only [setCL, if_neg h]
      rw [getCL, getCL, if_neg h, if_neg h]
      exact getCL_setCL_frame tl b key q v hq

end

mutual

theorem getN_delN_frame (n : N) (key q : Key) (hq : q ≠ key) :
    getN (delN n key).2 q = getN n q := by
  cases n with
  | mk p v0 cs =>
    by_cases hmis : p.length ≠ matchLen p key
    · rw [delN, if_pos hmis]
    · have hm : matchLen p key = p.length := (not_not.mp hmis).symm
      by_cases hex : key.length = p.length
      · have hkp : key = p := matchLen_full_eq p key hm hex.symm
        cases cs with
        | nil =>
          rw [delN, if_neg hmis, if_pos hex, delExact]
          exact frame_replace p v0 none .nil q (hkp ▸ hq)
        | cons cpk c tl =>
          cases c with
          | mk cp cv ccs =>
            cases tl with
            | nil =>
              rw [delN, if_neg hmis, if_pos hex, delExact]
              exact (frame_expand p cpk cp cv v0 ccs q (hkp ▸ hq)).symm
            | cons a2 c2 tl2 =>
              rw [delN, if_neg hmis, if_pos hex, delExact]
              · exact frame_replace p v0 none _ q (hkp ▸ hq)
              · simp
              · simp
      · have hkl : p.length < key.length := by
          have h1 := matchLen_le_right p key
          omega
        have hkd : key = p ++ keyAt key p.length ::
            key.drop (p.length + 1) := by
          have h0 := matchLen_full p key hm
          rw [listDrop_eq_keyAt_cons key p.length hkl] at h0
          exact h0
        simp only [delN, if_neg hmis, if_neg hex]
        by_cases hq1 : p.length ≠ matchLen p q
        · rw [getN, getN, if_pos hq1, if_pos hq1]
        · by_cases hq2 : p.length = q.length
          · rw [getN, getN, if_neg hq1, if_neg hq1, if_pos hq2, if_pos hq2]
          · have hqm : matchLen p q = p.length := (not_not.mp hq1).symm
            have hql : p.length < q.length := by
              have := matchLen_le_right p q
              omega
            have hqd : q = p ++ keyAt q p.length :: q.drop (p.length + 1) := by
              have h0 := matchLen_full p q hqm
              rw [listDrop_eq_keyAt_cons q p.length hql] at h0
              exact h0
            rw [getN, getN, if_neg hq1, if_neg hq1, if_neg hq2, if_neg hq2]
            by_cases hqb : keyAt q p.length = keyAt key p.length
            · rw [hqb]
              apply getCL_delCL_frame
              intro h
              exact hq (by rw [hqd, hqb, h, ← hkd])
            · exact getCL_delCL_ne cs _ _ _ _ hqb

theorem getCL_delCL_frame (cs : CL) (b : Nat) (key q : Key) (hq : q ≠ key) :
    getCL (delCL cs b key).2 b q = getCL cs b q := by
  cases cs with
  | nil => rw [delCL]
  | cons a c tl =>
    by_cases h : a = b
    · simp only [delCL, if_pos h]
      rw [getCL, getCL, if_pos h, if_pos h]
      exact getN_delN_frame c key q hq
    · simp only [delCL, if_neg h]
      rw [getCL, getCL, if_neg h, if_neg h]
      exact getCL_delCL_frame tl b key q hq

end

/-! ### The same, lifted to the tree -/

theorem artSet_fst (t : Tree) (key : Key) (v : Val) :
    (artSet t key v).1 = artGet t key := by
  cases t with
  | none => simp [artSet, artGet]
  | some n => simp [artSet, artGet, setN_fst n key v]

theorem artDel_fst (t : Tree) (key : Key) :
    (artDel t key).1 = artGet t key := by
  cases t with
  | none => simp [artDel, artGet]
  | some n => simp [artDel, artGet, delN_fst n key]

theorem artGet_artSet_self (t : Tree) (key : Key) (v : Val) :
    artGet (artSet t key v).2 key = some v := by
  cases t with
  | none => simp [artSet, artGet, getN, matchLen_self]
  | some n => simp [artSet, artGet, getN_setN_self n key v]

theorem artGet_artDel_self (t : Tree) (key : Key) :
    artGet (artDel t key).2 key = none := by
  cases t with
  | none => simp [artDel, artGet]
  | some n => simp [artDel, artGet, getN_delN_self n key]

theorem artGet_artSet_frame (t : Tree) (key q : Key) (v : Val) (hq : q ≠ key) :
    artGet (artSet t key v).2 q = artGet t q := by
  cases t with
  | none =>
    simp only [artSet, artGet]
    exact getN_leaf_ne key q (some v) hq
  | some n => simp [artSet, artGet, getN_setN_frame n key q v hq]

theorem artGet_artDel_frame (t : Tree) (key q : Key) (hq : q ≠ key) :
    artGet (artDel t key).2 q = artGet t q := by
  cases t with
  | none => simp [artDel, artGet]
  | some n => simp [artDel, artGet, getN_delN_frame n key q hq]

/-! ### Functional correctness of operation sequences -/

theorem runFrom_get (ops : List Op) (t : Tree) (m : Key → Option Val)
    (h : ∀ q, artGet t q = m q) (q : Key) :
    artGet (runFrom t ops) q = (ops.foldl specStep m) q := by
  induction ops generalizing t m with
  | nil => exact h q
  | cons op rest ih =>
    rw [runFrom, List.foldl_cons, ← runFrom]
    apply ih
    intro q'
    cases op with
    | set k v =>
      by_cases hqk : q' = k
      · subst hqk
        rw [stepOp, specStep, if_pos rfl]
        exact artGet_artSet_self t q' v
      · rw [stepOp, specStep, if_neg hqk]
        rw [artGet_artSet_frame t k q' v hqk]
        exact h q'
    | del k =>
      by_cases hqk : q' = k
      · subst hqk
        rw [stepOp, specStep, if_pos rfl]
        exact artGet_artDel_self t q'
      · rw [stepOp, specStep, if_neg hqk]
        rw [artGet_artDel_frame t k q' hqk]
        exact h q'

theorem runOps_get (ops : List Op) (q : Key) :
    artGet (runOps ops) q = specGet ops q := by
  exact runFrom_get ops none (fun _ => none) (fun _ => rfl) q

/-! ### The state passing walk of get returns the tree unchanged -/

mutual

theorem getSN_eq (n : N) (key : Key) : getSN n key = (getN n key, n) := by
  cases n with
  | mk p v cs =>
    by_cases h1 : p.length ≠ matchLen p key
    · rw [getSN, getN, if_pos h1, if_pos h1]
    · by_cases h2 : p.length = key.length
      · rw [getSN, getN, if_neg h1, if_neg h1, if_pos h2, if_pos h2]
      · have h3 := getSCL_eq cs (keyAt key p.length) (key.drop (p.length + 1))
        simp only [getSN, getN, if_neg h1, if_neg h2, h3]

theorem getSCL_eq (cs : CL) (b : Nat) (key : Key) :
    getSCL cs b key = (getCL cs b key, cs) := by
  cases cs with
  | nil => rw [getSCL, getCL]
  | cons a c tl =>
    by_cases h : a = b
    · simp only [getSCL, getCL, if_pos h, getSN_eq c key]
    · simp only [getSCL, getCL, if_neg h, getSCL_eq tl b key]

end

theorem artGetS_eq (t : Tree) (key : Key) :
    artGetS t key = (artGet t key, t) := by
  cases t with
  | none => rw [artGetS, artGet]
  | some n => simp only [artGetS, artGet, getSN_eq n key]

/-! ### The lexicographic order on keys -/

theorem keyLtB_irrefl (k : Key) : keyLtB k k = false := by
  induction k with
  | nil => rw [keyLtB]
  | cons a tl ih => simp [keyLtB, ih]

theorem keyLtB_self_append (s : List Nat) (b : Nat) (r : List Nat) :
    keyLtB s (s ++ b :: r) = true := by
  induction s with
  | nil => rw [List.nil_append, keyLtB]
  | cons a tl ih => simp [keyLtB, ih]

theorem keyLtB_append_lt (s : List Nat) (a b : Nat) (x y : List Nat)
    (h : a < b) : keyLtB (s ++ a :: x) (s ++ b :: y) = true := by
  induction s with
  | nil => simp [keyLtB, h]
  | cons c tl ih => simp [keyLtB, ih]

theorem keyLtB_asymm (a b : Key) (h : keyLtB a b = true) :
    keyLtB b a = false := by
  induction a generalizing b with
  | nil =>
    cases b with
    | nil => rw [keyLtB]
    | cons x xs => rw [keyLtB]
  | cons x xs ih =>
    cases b with
    | nil => rw [keyLtB] at h; exact absurd h (by simp)
    | cons y ys =>
      rw [keyLtB] at h ⊢
      by_cases h1 : x < y
      · have h2 : ¬ y < x := by omega
        simp [h1, h2]
      · by_cases h2 : y < x
        · simp [h1, h2] at h
        · simp [h1, h2] at h ⊢
          exact ih ys h

theorem keyLtB_total (a b : Key) (h1 : keyLtB a b = false)
    (h2 : keyLtB b a = false) : a = b := by
  induction a generalizing b with
  | nil =>
    cases b with
    | nil => rfl
    | cons y ys => rw [keyLtB] at h1; exact absurd h1 (by simp)
  | cons x xs ih =>
    cases b with
    | nil => rw [keyLtB] at h2; exact absurd h2 (by simp)
    | cons y ys =>
      rw [keyLtB] at h1 h2
      by_cases hx : x < y
      · simp [hx] at h1
      · by_cases hy : y < x
        · simp [hx, hy] at h2
        · have hxy : x = y := by omega
          subst hxy
          simp [hx] at h1 h2
          rw [ih ys h1 h2]

/-! ### Characterizing get as path decomposition -/

theorem getN_eq_some_iff (p : List Nat) (v0 : Option Val) (cs : CL) (k : Key)
    (v : Val) :
    getN (.mk p v0 cs) k = some v ↔
      (k = p ∧ v0 = some v) ∨
        ∃ b krest, k = p ++ b :: krest ∧ getCL cs b krest = some v := by
  constructor
  · intro h
    by_cases h1 : p.length ≠ matchLen p k
    · rw [getN, if_pos h1] at h
      exact absurd h (by simp)
    · have hm : matchLen p k = p.length := (not_not.mp h1).symm
      by_cases h2 : p.length = k.length
      · left
        refine ⟨matchLen_full_eq p k hm h2, ?_⟩
        rw [getN, if_neg h1, if_pos h2] at h
        exact h
      · right
        have hkl : p.length < k.length := by
          have := matchLen_le_right p k
          omega
        have hkd : k = p ++ keyAt k p.length :: k.drop (p.length + 1) := by
          have h0 := matchLen_full p k hm
          rw [listDrop_eq_keyAt_cons k p.length hkl] at h0
          exact h0
        refine ⟨keyAt k p.length, k.drop (p.length + 1), hkd, ?_⟩
        rw [getN, if_neg h1, if_neg h2] at h
        exact h
  · intro h
    rcases h with ⟨hk, hv⟩ | ⟨b, krest, hk, hg⟩
    · subst hk
      rw [getN_mk_self, hv]
    · subst hk
      rw [getN_step]
      exact hg

theorem getCL_some_findC (cs : CL) (b : Nat) (key : Key) (v : Val)
    (h : getCL cs b key = some v) : findC cs b ≠ none := by
  rw [getCL_eq_findC] at h
  cases hf : findC cs b with
  | none => rw [hf] at h; exact absurd h (by simp)
  | some c => simp

theorem ltAllCL_lt (a : Nat) (tl : CL) (b : Nat) (hall : ltAllCL a tl = true)
    (hf : findC tl b ≠ none) : a < b := by
  cases tl with
  | nil => rw [findC] at hf; exact absurd rfl hf
  | cons x c r =>
    rw [ltAllCL, Bool.and_eq_true, decide_eq_true_eq] at hall
    rw [findC] at hf
    by_cases hx : x = b
    · omega
    · rw [if_neg hx] at hf
      exact ltAllCL_lt a r b hall.2 hf

/-! ### Traversal lists exactly the bound keys -/

mutual

theorem mem_inorderN (pre : Key) (n : N) (hwf : wfN n = true) (k : Key)
    (v : Val) :
    ((k, v) ∈ inorderN pre n) ↔
      ∃ krel, k = pre ++ krel ∧ getN n krel = some v := by
  cases n with
  | mk p v0 cs =>
    have hwfc : wfCL cs = true := by rw [wfN] at hwf; exact hwf
    have hcl := mem_inorderCL (pre ++ p) cs hwfc k v
    constructor
    · intro h
      simp only [inorderN.eq_def] at h
      rcases List.mem_append.mp h with h | h
      · cases v0 with
        | none => simp at h
        | some x =>
          simp at h
          obtain ⟨hk, hv⟩ := h
          refine ⟨p, hk, ?_⟩
          rw [getN_mk_self, hv]
      · rcases hcl.mp h with ⟨b, krest, hk, hg⟩
        refine ⟨p ++ b :: krest, by rw [hk, List.append_assoc], ?_⟩
        exact (getN_eq_some_iff p v0 cs _ v).mpr (Or.inr ⟨b, krest, rfl, hg⟩)
    · rintro ⟨krel, hk, hg⟩
      rcases (getN_eq_some_iff p v0 cs krel v).mp hg with ⟨hkp, hv⟩ |
        ⟨b, krest, hkr, hg2⟩
      · subst hkp
        simp only [inorderN.eq_def]
        apply List.mem_append.mpr
        left
        rw [hv]
        simp [hk]
      · simp only [inorderN.eq_def]
        apply List.mem_append.mpr
        right
        apply hcl.mpr
        exact ⟨b, krest, by rw [hk, hkr, List.append_assoc], hg2⟩

theorem mem_inorderCL (pre : Key) (cs : CL) (hwf : wfCL cs = true) (k : Key)
    (v : Val) :
    ((k, v) ∈ inorderCL pre cs) ↔
      ∃ b krest, k = pre ++ b :: krest ∧ getCL cs b krest = some v := by
  cases cs with
  | nil => simp [inorderCL, getCL]
  | cons a c tl =>
    have hparts : wfN c = true ∧ ltAllCL a tl = true ∧ wfCL tl = true := by
      rw [wfCL] at hwf
      simpa [Bool.and_eq_true, and_assoc] using hwf
    have hN := mem_inorderN (pre ++ [a]) c hparts.1 k v
    have hT := mem_inorderCL pre tl hparts.2.2 k v
    constructor
    · intro h
      rw [inorderCL] at h
      rcases List.mem_append.mp h with h | h
      · rcases hN.mp h with ⟨krel, hk, hg⟩
        refine ⟨a, krel, by rw [hk]; simp, ?_⟩
        rw [getCL, if_pos rfl]
        exact hg
      · rcases hT.mp h with ⟨b, krest, hk, hg⟩
        have hab : a < b :=
          ltAllCL_lt a tl b hparts.2.1 (getCL_some_findC tl b krest v hg)
        refine ⟨b, krest, hk, ?_⟩
        rw [getCL, if_neg (by omega)]
        exact hg
    · rintro ⟨b, krest, hk, hg⟩
      rw [inorderCL]
      by_cases hab : a = b
      · subst hab
        rw [getCL, if_pos rfl] at hg
        apply List.mem_append.mpr
        left
        apply hN.mpr
        exact ⟨krest, by rw [hk]; simp, hg⟩
      · rw [getCL, if_neg hab] at hg
        apply List.mem_append.mpr
        right
        exact hT.mpr ⟨b, krest, hk, hg⟩

end

theorem mem_inorder_iff (t : Tree) (hwf : wfT t = true) (k : Key) (v : Val) :
    ((k, v) ∈ inorder t) ↔ artGet t k = some v := by
  cases t with
  | none => simp [inorder, artGet]
  | some n =>
    rw [inorder, artGet]
    have hwn : wfN n = true := by rw [wfT] at hwf; exact hwf
    have h := mem_inorderN [] n hwn k v
    constructor
    · intro hm
      rcases h.mp hm with ⟨krel, hk, hg⟩
      rw [List.nil_append] at hk
      rw [hk]
      exact hg
    · intro hg
      exact h.mpr ⟨k, by simp, hg⟩

/-! ### Traversal is strictly ascending -/

/-- The strict lexicographic order on the keys of two traversal entries. -/
def ordPair (e1 e2 : Key × Val) : Prop := keyLtB e1.1 e2.1 = true

mutual

theorem pairwise_inorderN (pre : Key) (n : N) (hwf : wfN n = true) :
    List.Pairwise ordPair (inorderN pre n) ∧
      ∀ e ∈ inorderN pre n, ∃ s, e.1 = pre ++ s := by
  cases n with
  | mk p v0 cs =>
    have hwfc : wfCL cs = true := by rw [wfN] at hwf; exact hwf
    have hcl := pairwise_inorderCL (pre ++ p) cs hwfc
    constructor
    · simp only [inorderN.eq_def]
      apply List.pairwise_append.mpr
      refine ⟨?_, hcl.1, ?_⟩
      · cases v0 <;> simp
      · intro x hx y hy
        cases v0 with
        | none => simp at hx
        | some xv =>
          simp at hx
          rcases hcl.2 y hy with ⟨b, rest, hy1, _⟩
          rw [ordPair, hy1]
          have hx1 : x.1 = pre ++ p := by rw [hx]
          rw [hx1]
          exact keyLtB_self_append (pre ++ p) b rest
    · intro e he
      simp only [inorderN.eq_def] at he
      rcases List.mem_append.mp he with he | he
      · cases v0 with
        | none => simp at he
        | some xv =>
          simp at he
          exact ⟨p, by rw [he]⟩
      · rcases hcl.2 e he with ⟨b, rest, h1, _⟩
        exact ⟨p ++ b :: rest, by rw [h1, List.append_assoc]⟩

theorem pairwise_inorderCL (pre : Key) (cs : CL) (hwf : wfCL cs = true) :
    List.Pairwise ordPair (inorderCL pre cs) ∧
      ∀ e ∈ inorderCL pre cs, ∃ b rest, e.1 = pre ++ b :: rest ∧
        findC cs b ≠ none := by
  cases cs with
  | nil => simp [inorderCL]
  | cons a c tl =>
    have hparts : wfN c = true ∧ ltAllCL a tl = true ∧ wfCL tl = true := by
      rw [wfCL] at hwf
      simpa [Bool.and_eq_true, and_assoc] using hwf
    have hN := pairwise_inorderN (pre ++ [a]) c hparts.1
    have hT := pairwise_inorderCL pre tl hparts.2.2
    constructor
    · rw [inorderCL]
      apply List.pairwise_append.mpr
      refine ⟨hN.1, hT.1, ?_⟩
      intro x hx y hy
      rcases hN.2 x hx with ⟨s, hx1⟩
      rcases hT.2 y hy with ⟨b, rest, hy1, hyf⟩
      have hab : a < b := ltAllCL_lt a tl b hparts.2.1 hyf
      rw [ordPair, hx1, hy1]
      have hx2 : pre ++ [a] ++ s = pre ++ a :: s := by simp
      rw [hx2]
      exact keyLtB_append_lt pre a b s rest hab
    · intro e he
      rw [inorderCL] at he
      rcases List.mem_append.mp he with he | he
      · rcases hN.2 e he with ⟨s, h1⟩
        refine ⟨a, s, by rw [h1]; simp, ?_⟩
        rw [findC, if_pos rfl]
        simp
      · rcases hT.2 e he with ⟨b, rest, h1, h2⟩
        refine ⟨b, rest, h1, ?_⟩
        rw [findC]
        by_cases hab : a = b
        · rw [if_pos hab]
          simp
        · rw [if_neg hab]
          exact h2

end

theorem pairwise_inorder (t : Tree) (hwf : wfT t = true) :
    List.Pairwise ordPair (inorder t) := by
  cases t with
  | none => simp [inorder]
  | some n =>
    rw [inorder]
    have hwn : wfN n = true := by rw [wfT] at hwf; exact hwf
    exact (pairwise_inorderN [] n hwn).1

/-! ### The claims -/

/-- Claim C1: for every finite sequence of `set` and `del` operations
starting from the empty tree and every key `k`, `get k` returns the value
bound by the most recent `set k` not followed by a `del k`, and `none`
otherwise.  `specGet` is exactly that reference semantics.  Node
deallocation is modelled as keeping the last written node state, since
`del` frees nodes without unlinking them (see the root slot claim). -/
theorem art_functional_correctness (ops : List Op) (k : Key) :
    artGet (runOps ops) k = specGet ops k :=
  runOps_get ops k

/-- Claim C2: deleting the key of a leaf that has exactly one sibling and
a value-less parent is claimed to collapse the parent: the sibling's new
prefix becomes `parent.prefix ++ [sibling_partial_key] ++ sibling.prefix`
(here `[] ++ [98] ++ [] = [98]`) and the root slot then holds the
sibling.  The code never reaches that branch: `par` stays null during the
descent, so `n_siblings` is always `0`; after `set "a"; set "b"; del "a"`
the root is still the two-child parent, the deleted leaf is still linked
under partial key `97`, and the root does not hold the sibling. -/
theorem del_leaf_one_sibling_no_collapse :
    (artDel (runOps [.set [97] 1, .set [98] 2]) [97]).1 = some 1 ∧
    (artDel (runOps [.set [97] 1, .set [98] 2]) [97]).2 =
      some (N.mk [] none (CL.cons 97 (N.mk [] none CL.nil)
        (CL.cons 98 (N.mk [] (some 2) CL.nil) CL.nil))) ∧
    (artDel (runOps [.set [97] 1, .set [98] 2]) [97]).2 ≠
      some (N.mk [98] (some 2) CL.nil) := by
  refine ⟨by decide, by decide, by decide⟩

/-- Claim C3: the compression invariant (no node with fewer than 2
children, an empty value slot and a non-null parent) is claimed to hold
after every sequence of operations.  After `set "a"; set "b"; del "a"`
the node under partial key `97` has no child, no value and the root as
parent: the invariant is violated because `del` never detaches the
deleted leaf (`par` stays null, so `del_child` is unreachable). -/
theorem compression_invariant_violated :
    compressionOK (runOps [.set [97] 1, .set [98] 2, .del [97]]) = false := by
  decide

/-- Claim C4: deleting the only key of the tree is claimed to leave the
tree empty.  After `set "a"; del "a"` the branch for a leaf with no
children and no siblings deallocates the node but never writes `nullptr`
into `root_` (nor into the parent slot in the general case), so the root
slot still holds the node, with its value slot cleared as last written. -/
theorem del_last_key_root_not_cleared :
    (artDel (artSet none [97] 1).2 [97]).2 ≠ none ∧
    (artDel (artSet none [97] 1).2 [97]).2 = some (N.mk [97] none CL.nil) := by
  refine ⟨by decide, by decide⟩

/-- Claim C5: `del` of a key that is not bound is claimed to return
`none` and leave the tree unchanged.  After
`set "ab"; set "ac"; del "ab"; set "abd"` the tree holds a value-less
single-child node for `"ab"` (reachable only because `del` never
detaches); `del "ab"` then returns `none` but merges that node with its
child, changing the tree. -/
theorem del_absent_key_mutates_tree :
    artGet (runOps [.set [97, 98] 1, .set [97, 99] 2, .del [97, 98],
      .set [97, 98, 100] 3]) [97, 98] = none ∧
    (artDel (runOps [.set [97, 98] 1, .set [97, 99] 2, .del [97, 98],
      .set [97, 98, 100] 3]) [97, 98]).1 = none ∧
    (artDel (runOps [.set [97, 98] 1, .set [97, 99] 2, .del [97, 98],
      .set [97, 98, 100] 3]) [97, 98]).2 ≠
      runOps [.set [97, 98] 1, .set [97, 99] 2, .del [97, 98],
        .set [97, 98, 100] 3] := by
  refine ⟨by decide, by decide, by decide⟩

/-- Claim C6: round trips, from any tree state: `set k v` then `get k`
yields `v`; `set k v1; set k v2` returns `v1` from the second call and
leaves `get k = v2`; `set k v; del k` returns `v` from the `del` and
leaves `get k` absent. -/
theorem set_get_del_round_trip (t : Tree) (k : Key) (v v1 v2 : Val) :
    artGet (artSet t k v).2 k = some v ∧
    (artSet (artSet t k v1).2 k v2).1 = some v1 ∧
    artGet (artSet (artSet t k v1).2 k v2).2 k = some v2 ∧
    (artDel (artSet t k v).2 k).1 = some v ∧
    artGet (artDel (artSet t k v).2 k).2 k = none := by
  refine ⟨artGet_artSet_self t k v, ?_, artGet_artSet_self _ k v2, ?_,
    artGet_artDel_self _ k⟩
  · rw [artSet_fst]
    exact artGet_artSet_self t k v1
  · rw [artDel_fst]
    exact artGet_artSet_self t k v

/-- Claim C7: `set k v` returns the value handle previously bound to
exactly `k` (what `get k` returned just before the call), and `none` when
`k` was not bound; in particular it is non-absent only in the exact match
replace case, the only case in which `get` finds a value. -/
theorem set_returns_previous_binding (t : Tree) (k : Key) (v : Val) :
    (artSet t k v).1 = artGet t k :=
  artSet_fst t k v

/-- Claim C8: the empty key is a legal key distinct from absence:
inserting it into the empty tree binds it at the root with an empty
prefix, `get []` then returns the bound value, and the binding of the
empty key is independent of the bindings of all non-empty keys (neither
`set` nor `del` of a non-empty key changes `get []`, and neither `set []`
nor `del []` changes `get` of a non-empty key). -/
theorem empty_key_independent (v : Val) :
    artSet none [] v = (none, some (N.mk [] (some v) CL.nil)) ∧
    artGet (artSet none [] v).2 [] = some v ∧
    (∀ (t : Tree) (k' : Key) (v' : Val), k' ≠ [] →
      artGet (artSet t k' v').2 [] = artGet t []) ∧
    (∀ (t : Tree) (k' : Key), k' ≠ [] →
      artGet (artDel t k').2 [] = artGet t []) ∧
    (∀ (t : Tree) (k' : Key) (v' : Val), k' ≠ [] →
      artGet (artSet t [] v').2 k' = artGet t k') ∧
    (∀ (t : Tree) (k' : Key), k' ≠ [] →
      artGet (artDel t []).2 k' = artGet t k') := by
  refine ⟨rfl, artGet_artSet_self none [] v, ?_, ?_, ?_, ?_⟩
  · intro t k' v' hk
    exact artGet_artSet_frame t k' [] v' (fun h => hk h.symm)
  · intro t k' hk
    exact artGet_artDel_frame t k' [] (fun h => hk h.symm)
  · intro t k' v' hk
    exact artGet_artSet_frame t [] k' v' hk
  · intro t k' hk
    exact artGet_artDel_frame t [] k' hk

theorem empty_key_independent_witness :
    ((3 : Nat) :: [] ≠ ([] : Key)) ∧
    artGet (artSet (some (N.mk [] (some 5) CL.nil)) [3] 7).2 [] =
      artGet (some (N.mk [] (some 5) CL.nil)) [] ∧
    artGet (artDel (some (N.mk [] (some 5) CL.nil)) [3]).2 [] =
      artGet (some (N.mk [] (some 5) CL.nil)) [] ∧
    artGet (artSet (some (N.mk [] (some 5) CL.nil)) [] 7).2 [3] =
      artGet (some (N.mk [] (some 5) CL.nil)) [3] ∧
    artGet (artDel (some (N.mk [] (some 5) CL.nil)) []).2 [3] =
      artGet (some (N.mk [] (some 5) CL.nil)) [3] :=
  ⟨by decide,
    (empty_key_independent 5).2.2.1 (some (N.mk [] (some 5) CL.nil)) [3] 7
      (by decide),
    (empty_key_independent 5).2.2.2.1 (some (N.mk [] (some 5) CL.nil)) [3]
      (by decide),
    (empty_key_independent 5).2.2.2.2.1 (some (N.mk [] (some 5) CL.nil)) [3] 7
      (by decide),
    (empty_key_independent 5).2.2.2.2.2 (some (N.mk [] (some 5) CL.nil)) [3]
      (by decide)⟩

/-- Claim C9: for every tree state with the sorted child maps the node
classes guarantee and every seek key, the iterator obtained from
`begin(seek)` (modelled from the spec as the in-order traversal
restricted to keys not below the seek key, tree_it.hpp not being in the
sources) yields pairwise strictly ascending keys, every yielded pair is a
binding of the tree with key at least the seek key, and every binding
with key at least the seek key is yielded; hence its first element, when
any, is the smallest key at least the seek key, and it is empty exactly
when no such key exists. -/
theorem seek_iteration_sorted_complete (t : Tree) (seek : Key)
    (hwf : wfT t = true) :
    List.Pairwise ordPair (seekList t seek) ∧
    (∀ e ∈ seekList t seek,
      keyLtB e.1 seek = false ∧ artGet t e.1 = some e.2) ∧
    (∀ (k : Key) (v : Val), artGet t k = some v → keyLtB k seek = false →
      (k, v) ∈ seekList t seek) := by
  refine ⟨?_, ?_, ?_⟩
  · exact (pairwise_inorder t hwf).sublist (List.filter_sublist _)
  · intro e he
    have h2 := List.mem_filter.mp he
    refine ⟨by simpa using h2.2, ?_⟩
    have hm : (e.1, e.2) ∈ inorder t := by simpa using h2.1
    exact (mem_inorder_iff t hwf e.1 e.2).mp hm
  · intro k v hg hk
    apply List.mem_filter.mpr
    exact ⟨(mem_inorder_iff t hwf k v).mpr hg, by simp [hk]⟩

theorem seek_iteration_sorted_complete_witness :
    wfT (some (N.mk [] none (CL.cons 1 (N.mk [] (some 10) CL.nil)
      (CL.cons 2 (N.mk [] (some 20) CL.nil) CL.nil)))) = true ∧
    (List.Pairwise ordPair (seekList (some (N.mk [] none
        (CL.cons 1 (N.mk [] (some 10) CL.nil)
          (CL.cons 2 (N.mk [] (some 20) CL.nil) CL.nil)))) [1, 5]) ∧
    (∀ e ∈ seekList (some (N.mk [] none (CL.cons 1 (N.mk [] (some 10) CL.nil)
        (CL.cons 2 (N.mk [] (some 20) CL.nil) CL.nil)))) [1, 5],
      keyLtB e.1 [1, 5] = false ∧
        artGet (some (N.mk [] none (CL.cons 1 (N.mk [] (some 10) CL.nil)
          (CL.cons 2 (N.mk [] (some 20) CL.nil) CL.nil)))) e.1 = some e.2) ∧
    (∀ (k : Key) (v : Val),
      artGet (some (N.mk [] none (CL.cons 1 (N.mk [] (some 10) CL.nil)
        (CL.cons 2 (N.mk [] (some 20) CL.nil) CL.nil)))) k = some v →
      keyLtB k [1, 5] = false →
      (k, v) ∈ seekList (some (N.mk [] none (CL.cons 1 (N.mk [] (some 10) CL.nil)
        (CL.cons 2 (N.mk [] (some 20) CL.nil) CL.nil)))) [1, 5])) :=
  ⟨by decide,
    seek_iteration_sorted_complete
      (some (N.mk [] none (CL.cons 1 (N.mk [] (some 10) CL.nil)
        (CL.cons 2 (N.mk [] (some 20) CL.nil) CL.nil)))) [1, 5] (by decide)⟩

/-- Claim C10: `get` is a read-only point lookup: the state passing
version of the walk, which rebuilds the tree from exactly the fields the
source reads, returns the tree unchanged next to the value handle. -/
theorem get_read_only (t : Tree) (k : Key) :
    artGetS t k = (artGet t k, t) :=
  artGetS_eq t k

end ART

